import Mathlib

/-!
Verification of the `rfc6979` Go package (deterministic DSA/ECDSA nonce
generation per RFC 6979) against its natural-language specification.

Byte strings are modelled as `List (Fin 256)`, big integers as `Nat`
(`math/big` integers here are always non-negative), and the HMAC primitive,
the modular inverse and the elliptic-curve scalar multiplication — which the
spec lists as external collaborators — as opaque function parameters.
The possibly non-terminating candidate loop is modelled with explicit fuel.
-/

namespace RFC6979

abbrev Byte := Fin 256

abbrev Bytes := List Byte

/-- The MAC primitive: a keyed hash taking a key and a message
(`alg.mac` in `rfc6979.go`, i.e. HMAC over the caller's hash). -/
abbrev Mac := Bytes → Bytes → Bytes

/-- Big-endian interpretation of a byte string as an unsigned integer
(`new(big.Int).SetBytes(in)`). -/
def bytesToNat (bs : Bytes) : Nat :=
  bs.foldl (fun acc b => acc * 256 + b.val) 0

/-- Fuel-driven minimal big-endian encoding; `fuel ≥ v` is enough fuel. -/
def natToBytesAux : Nat → Nat → Bytes
  | 0, _ => []
  | fuel + 1, v =>
    if v = 0 then []
    else natToBytesAux fuel (v / 256) ++ [⟨v % 256, Nat.mod_lt _ (by norm_num)⟩]

/-- Minimal big-endian encoding of a non-negative integer, `v.Bytes()` in Go:
no leading zero bytes, and the empty string for `0`. -/
def natToBytes (v : Nat) : Bytes := natToBytesAux v v

/-- Go's `q.BitLen()`, fuel-driven (`fuel ≥ n` is enough fuel). -/
def bitLenAux : Nat → Nat → Nat
  | 0, _ => 0
  | fuel + 1, n => if n = 0 then 0 else bitLenAux fuel (n / 2) + 1

/-- Bit length of a non-negative integer: `0` for `0`, otherwise the least
`l` with `n < 2 ^ l`.  Models `(*big.Int).BitLen`. -/
def bitLen (n : Nat) : Nat := bitLenAux n n

/-- RFC 6979 §2.3.2, `bits2int` from `rfc6979.go`:
big-endian value of `input`, right-shifted so that only the `qlen`
most-significant bits are kept when the input is longer than `qlen` bits. -/
def bits2int (input : Bytes) (qlen : Nat) : Nat :=
  let vlen := input.length * 8
  let v := bytesToNat input
  if vlen > qlen then v >>> (vlen - qlen) else v

/-- RFC 6979 §2.3.3, `int2octets` from `rfc6979.go`:
the minimal big-endian encoding of `v`, left-zero-padded to `rolen` bytes
when too short, its most-significant bytes dropped when too long. -/
def int2octets (v : Nat) (rolen : Nat) : Bytes :=
  let out := natToBytes v
  if out.length < rolen then
    List.replicate (rolen - out.length) (0 : Byte) ++ out
  else if out.length > rolen then
    out.drop (out.length - rolen)
  else
    out

/-- RFC 6979 §2.3.4, `bits2octets` from `rfc6979.go`.  The comparison is on
`z1 - q` as a signed big integer (`z2.Sign() < 0`), exactly as in the source. -/
def bits2octets (input : Bytes) (q : Nat) (qlen rolen : Nat) : Bytes :=
  let z1 := bits2int input qlen
  let z2 : Int := (z1 : Int) - (q : Int)
  if z2 < 0 then int2octets z1 rolen else int2octets z2.toNat rolen

/-- Internal DRBG state, the byte buffers `K` and `V` of `generateSecret`. -/
structure GenState where
  k : Bytes
  v : Bytes

/-- Step H2 of `generateSecret`: starting from accumulated output `t`,
repeat `v = mac(k, v); t = t ++ v` while `t.length < need`.
`fuel` bounds the number of iterations; `fuel = need` is enough whenever the
MAC output is non-empty, in which case exhausting the fuel coincides with the
loop condition turning false. -/
def buildT (mac : Mac) (k : Bytes) (need : Nat) : Nat → Bytes → Bytes → Bytes × Bytes
  | 0, v, t => (v, t)
  | fuel + 1, v, t =>
    if t.length < need then
      let v' := mac k v
      buildT mac k need fuel v' (t ++ v')
    else (v, t)

/-- The candidate decoded in one iteration of `generateSecret`'s main loop:
`bits2int` of the `T` built by `buildT` from state `(k, v)`
(steps H1–H2 followed by `secret := bits2int(t, qlen)`). -/
def candidateOf (mac : Mac) (qlen : Nat) (st : GenState) : Nat :=
  bits2int (buildT mac st.k (qlen / 8) (qlen / 8) st.v []).2 qlen

/-- The `V` buffer after `buildT` ran from state `(k, v)`. -/
def vAfterT (mac : Mac) (qlen : Nat) (st : GenState) : Bytes :=
  (buildT mac st.k (qlen / 8) (qlen / 8) st.v []).1

/-- Step H3 / step d of the loop: on rejection,
`K = mac(K, V || 0x00); V = mac(K, V)`. -/
def rejectStep (mac : Mac) (st : GenState) : GenState :=
  let k' := mac st.k (st.v ++ [(0 : Byte)])
  ⟨k', mac k' st.v⟩

/-- The `for {}` loop of `generateSecret` (steps H1–H3), fuel-bounded.
Returns the accepted candidate (`none` when the fuel runs out first) together
with the list of all candidates on which `test` was invoked: as in the Go
source, `test(secret)` sits after two short-circuiting range checks, so it is
invoked exactly on the in-range candidates. -/
def genLoop (mac : Mac) (q qlen : Nat) (test : Nat → Bool) :
    Nat → GenState → Option Nat × List Nat
  | 0, _ => (none, [])
  | fuel + 1, st =>
    let c := candidateOf mac qlen st
    let st' : GenState := ⟨st.k, vAfterT mac qlen st⟩
    if 1 ≤ c ∧ c < q then
      if test c then (some c, [c])
      else
        let r := genLoop mac q qlen test fuel (rejectStep mac st')
        (r.1, c :: r.2)
    else
      genLoop mac q qlen test fuel (rejectStep mac st')

/-- `generateSecret` from `rfc6979.go`.  `holen` is the caller hash's output
size (`alg().Size()`); the HMAC primitive `mac` is an opaque parameter.
Returns the accepted candidate plus the trace of tested candidates. -/
def generateSecret (q x : Nat) (mac : Mac) (holen : Nat) (hash : Bytes)
    (test : Nat → Bool) (fuel : Nat) : Option Nat × List Nat :=
  -- Step A
  let qlen := bitLen q
  let rolen := (qlen + 7) >>> 3
  -- Step B
  let v0 : Bytes := List.replicate holen (1 : Byte)
  -- Step C
  let k0 : Bytes := List.replicate holen (0 : Byte)
  -- Step D
  let bx := int2octets x rolen ++ bits2octets hash q qlen rolen
  let k1 := mac k0 (v0 ++ [(0 : Byte)] ++ bx)
  -- Step E
  let v1 := mac k1 v0
  -- Step F
  let k2 := mac k1 (v1 ++ [(1 : Byte)] ++ bx)
  -- Step G
  let v2 := mac k2 v1
  genLoop mac q qlen test fuel ⟨k2, v2⟩

/-- The `(r, s)` pair the DSA acceptance closure computes from candidate `k`
(`SignDSA` in the source): `r = (g^k mod p) mod q` and
`s = ((x*r + z) mod q) * k⁻¹ mod q` with `z` the digest read big-endian.
The modular inverse is the opaque parameter `modInv`. -/
def dsaRS (p q g x : Nat) (modInv : Nat → Nat → Nat) (hash : Bytes) (k : Nat) :
    Nat × Nat :=
  let r := g ^ k % p % q
  let z := bytesToNat hash
  let s := (x * r + z) % q * modInv k q % q
  (r, s)

/-- The DSA acceptance predicate: accept iff `r ≠ 0` and `s ≠ 0`.
(The source returns `false` before computing `s` when `r = 0`; the Boolean
outcome is the same.) -/
def dsaTest (p q g x : Nat) (modInv : Nat → Nat → Nat) (hash : Bytes)
    (k : Nat) : Bool :=
  let rs := dsaRS p q g x modInv hash k
  decide (rs.1 ≠ 0 ∧ rs.2 ≠ 0)

/-- `SignDSA` from `rfc6979.go`.  `Except.error ()` models
`dsa.ErrInvalidPublicKey`; `Except.ok none` models fuel exhaustion of the
otherwise endless generator loop; `Except.ok (some (r, s))` is a signature. -/
def signDSA (p q g x : Nat) (modInv : Nat → Nat → Nat) (mac : Mac)
    (holen : Nat) (hash : Bytes) (fuel : Nat) :
    Except Unit (Option (Nat × Nat)) :=
  let n := bitLen q
  if n &&& 7 ≠ 0 then Except.error ()
  else
    match (generateSecret q x mac holen hash
            (dsaTest p q g x modInv hash) fuel).1 with
    | none => Except.ok none
    | some k => Except.ok (some (dsaRS p q g x modInv hash k))

/-- `hashToInt` from `ecdsa.go` (copied there from `crypto/ecdsa`),
parameterized by the curve order `N` (`c.Params().N`): truncate the hash to
the order's byte length, then shift out the remaining excess bits.
The excess is computed as a signed quantity, as `len(hash)*8 - orderBits`
is in Go. -/
def hashToInt (hash : Bytes) (N : Nat) : Nat :=
  let orderBits := bitLen N
  let orderBytes := (orderBits + 7) / 8
  let hash' := if hash.length > orderBytes then hash.take orderBytes else hash
  let ret := bytesToNat hash'
  let excess : Int := (hash'.length : Int) * 8 - (orderBits : Int)
  if excess > 0 then ret >>> excess.toNat else ret

/-- The `(r, s)` pair the ECDSA acceptance closure computes from candidate
`k` (`SignECDSA` in the source): `r = x-coordinate of k·G mod N` and
`s = (d*r + e) * k⁻¹ mod N` with `e = hashToInt hash`.  The curve's scalar
base multiplication (x-coordinate) is the opaque parameter `sbmx`. -/
def ecdsaRS (N d : Nat) (sbmx : Nat → Nat) (modInv : Nat → Nat → Nat)
    (hash : Bytes) (k : Nat) : Nat × Nat :=
  let r := sbmx k % N
  let e := hashToInt hash N
  let s := (d * r + e) * modInv k N % N
  (r, s)

/-- The ECDSA acceptance predicate: accept iff `r ≠ 0` and `s ≠ 0`. -/
def ecdsaTest (N d : Nat) (sbmx : Nat → Nat) (modInv : Nat → Nat → Nat)
    (hash : Bytes) (k : Nat) : Bool :=
  let rs := ecdsaRS N d sbmx modInv hash k
  decide (rs.1 ≠ 0 ∧ rs.2 ≠ 0)

/-- `SignECDSA` from `ecdsa.go`. `none` models fuel exhaustion of the
otherwise endless generator loop. -/
def signECDSA (N d : Nat) (sbmx : Nat → Nat) (modInv : Nat → Nat → Nat)
    (mac : Mac) (holen : Nat) (hash : Bytes) (fuel : Nat) :
    Option (Nat × Nat) :=
  match (generateSecret N d mac holen hash
          (ecdsaTest N d sbmx modInv hash) fuel).1 with
  | none => none
  | some k => some (ecdsaRS N d sbmx modInv hash k)

/-- `V` after `m` iterations of `v = mac(k, v)`. -/
def macIter (mac : Mac) (k : Bytes) (v : Bytes) : Nat → Bytes
  | 0 => v
  | m + 1 => mac k (macIter mac k v m)

/-- `T` after `m` iterations of `v = mac(k, v); t = t ++ v`. -/
def macChain (mac : Mac) (k : Bytes) (v : Bytes) : Nat → Bytes
  | 0 => []
  | m + 1 => macChain mac k v m ++ mac k (macIter mac k v m)

/-- A concrete single-byte MAC used to instantiate theorems with hypotheses
on small closed inputs. -/
def exMac : Mac := fun _ _ => [(2 : Byte)]

/-! ### Arithmetic facts about the byte conversions -/

theorem bytesToNat_acc (bs : Bytes) : ∀ acc : Nat,
    bs.foldl (fun a b => a * 256 + b.val) acc =
      acc * 256 ^ bs.length + bytesToNat bs := by
  induction bs with
  | nil => intro acc; simp [bytesToNat]
  | cons b l ih =>
    intro acc
    simp only [List.foldl_cons, List.length_cons, bytesToNat]
    rw [ih (acc * 256 + b.val), ih ((0 : Nat) * 256 + b.val)]
    ring

theorem bytesToNat_cons (b : Byte) (l : Bytes) :
    bytesToNat (b :: l) = b.val * 256 ^ l.length + bytesToNat l := by
  have h := bytesToNat_acc l ((0 : Nat) * 256 + b.val)
  simpa [bytesToNat] using h

theorem bytesToNat_append (a b : Bytes) :
    bytesToNat (a ++ b) = bytesToNat a * 256 ^ b.length + bytesToNat b := by
  simp only [bytesToNat, List.foldl_append]
  exact bytesToNat_acc b (bytesToNat a)

theorem bytesToNat_lt (bs : Bytes) : bytesToNat bs < 256 ^ bs.length := by
  induction bs with
  | nil => simp [bytesToNat]
  | cons b l ih =>
    rw [bytesToNat_cons]
    have hb : b.val ≤ 255 := Nat.lt_succ_iff.mp b.isLt
    have : b.val * 256 ^ l.length ≤ 255 * 256 ^ l.length :=
      Nat.mul_le_mul_right _ hb
    calc b.val * 256 ^ l.length + bytesToNat l
        < b.val * 256 ^ l.length + 256 ^ l.length := by omega
      _ ≤ 255 * 256 ^ l.length + 256 ^ l.length := by omega
      _ = 256 ^ (l.length + 1) := by ring
      _ = 256 ^ (b :: l).length := by simp

theorem bytesToNat_replicate_zero (n : Nat) :
    bytesToNat (List.replicate n (0 : Byte)) = 0 := by
  induction n with
  | zero => rfl
  | succ m ih => rw [List.replicate_succ, bytesToNat_cons, ih]; simp

theorem natToBytesAux_toNat : ∀ fuel v, v ≤ fuel →
    bytesToNat (natToBytesAux fuel v) = v := by
  intro fuel
  induction fuel with
  | zero =>
    intro v hv
    interval_cases v
    rfl
  | succ f ih =>
    intro v hv
    by_cases h0 : v = 0
    · simp [natToBytesAux, h0, bytesToNat]
    · have hdiv : v / 256 ≤ f := by
        have : v / 256 < v := Nat.div_lt_self (Nat.pos_of_ne_zero h0) (by norm_num)
        omega
      simp only [natToBytesAux, h0, if_false]
      rw [bytesToNat_append, ih _ hdiv]
      have : bytesToNat [(⟨v % 256, Nat.mod_lt _ (by norm_num)⟩ : Byte)] = v % 256 := by
        simp [bytesToNat]
      rw [this]
      simp only [List.length_cons, List.length_nil, pow_one]
      omega

theorem bytesToNat_natToBytes (v : Nat) : bytesToNat (natToBytes v) = v :=
  natToBytesAux_toNat v v le_rfl

theorem natToBytesAux_length : ∀ fuel v m, v ≤ fuel → v < 256 ^ m →
    (natToBytesAux fuel v).length ≤ m := by
  intro fuel
  induction fuel with
  | zero => intro v m _ _; simp [natToBytesAux]
  | succ f ih =>
    intro v m hv hm
    by_cases h0 : v = 0
    · simp [natToBytesAux, h0]
    · have hm1 : 1 ≤ m := by
        rcases Nat.eq_zero_or_pos m with h | h
        · subst h; simp at hm; omega
        · exact h
      have hdiv : v / 256 ≤ f := by
        have : v / 256 < v := Nat.div_lt_self (Nat.pos_of_ne_zero h0) (by norm_num)
        omega
      have hdm : v / 256 < 256 ^ (m - 1) := by
        rw [Nat.div_lt_iff_lt_mul (by norm_num : (0:Nat) < 256)]
        calc v < 256 ^ m := hm
          _ = 256 ^ (m - 1) * 256 := by
              rw [← pow_succ]
              congr 1
              omega
      simp only [natToBytesAux, h0, if_false, List.length_append,
        List.length_cons, List.length_nil]
      have := ih (v / 256) (m - 1) hdiv hdm
      omega

theorem natToBytes_length_le (v m : Nat) (h : v < 256 ^ m) :
    (natToBytes v).length ≤ m :=
  natToBytesAux_length v v m le_rfl h

theorem bytesToNat_split (l : Bytes) (k : Nat) :
    bytesToNat l =
      bytesToNat (l.take k) * 256 ^ (l.drop k).length + bytesToNat (l.drop k) := by
  conv_lhs => rw [← List.take_append_drop k l]
  exact bytesToNat_append _ _

theorem bytesToNat_drop (l : Bytes) (k : Nat) :
    bytesToNat (l.drop k) = bytesToNat l % 256 ^ (l.length - k) := by
  rw [bytesToNat_split l k, ← List.length_drop, Nat.mul_comm, Nat.mul_add_mod,
    Nat.mod_eq_of_lt (bytesToNat_lt _)]

theorem bytesToNat_take (l : Bytes) (k : Nat) :
    bytesToNat (l.take k) = bytesToNat l >>> (8 * (l.length - k)) := by
  have hpow : (2 : Nat) ^ (8 * (l.length - k)) = 256 ^ (l.drop k).length := by
    rw [List.length_drop, pow_mul]
    norm_num
  rw [bytesToNat_split l k, Nat.shiftRight_eq_div_pow, hpow, Nat.mul_comm,
    Nat.mul_add_div (by positivity), Nat.div_eq_of_lt (bytesToNat_lt _)]
  omega

theorem bits2int_lt (input : Bytes) (qlen : Nat) :
    bits2int input qlen < 2 ^ qlen := by
  simp only [bits2int]
  have hv : bytesToNat input < 2 ^ (input.length * 8) := by
    have : (2 : Nat) ^ (input.length * 8) = 256 ^ input.length := by
      rw [Nat.mul_comm, pow_mul]
      norm_num
    rw [this]
    exact bytesToNat_lt input
  split
  · rename_i hgt
    rw [Nat.shiftRight_eq_div_pow]
    rw [Nat.div_lt_iff_lt_mul (by positivity)]
    calc bytesToNat input < 2 ^ (input.length * 8) := hv
      _ = 2 ^ qlen * 2 ^ (input.length * 8 - qlen) := by
          rw [← pow_add]
          congr 1
          omega
  · rename_i hle
    calc bytesToNat input < 2 ^ (input.length * 8) := hv
      _ ≤ 2 ^ qlen := Nat.pow_le_pow_right (by norm_num) (by omega)

theorem int2octets_toNat_of_lt (v rolen : Nat) (h : v < 256 ^ rolen) :
    bytesToNat (int2octets v rolen) = v := by
  have hlen : (natToBytes v).length ≤ rolen := natToBytes_length_le v rolen h
  simp only [int2octets]
  rcases Nat.lt_or_ge (natToBytes v).length rolen with hlt | hge
  · rw [if_pos hlt, bytesToNat_append, bytesToNat_replicate_zero,
      bytesToNat_natToBytes]
    simp
  · have heq : (natToBytes v).length = rolen := le_antisymm hlen hge
    rw [if_neg (by omega), if_neg (by omega)]
    exact bytesToNat_natToBytes v

/-- Helper shared by several claims: `bits2octets` written with `Nat`
comparison and truncated subtraction instead of the source's signed test. -/
theorem bits2octets_eq (input : Bytes) (q qlen rolen : Nat) :
    bits2octets input q qlen rolen =
      if bits2int input qlen < q then int2octets (bits2int input qlen) rolen
      else int2octets (bits2int input qlen - q) rolen := by
  simp only [bits2octets]
  rcases Nat.lt_or_ge (bits2int input qlen) q with h | h
  · rw [if_pos (by omega), if_pos h]
  · rw [if_neg (by omega), if_neg (by omega)]
    congr 1
    omega

/-! ### Claim theorems for the converters -/

/-- Claim C4: `bits2int input qlen` interprets `input` as a big-endian
unsigned integer and, when the input's bit length (8 × byte length) exceeds
`qlen`, right-shifts by exactly that excess; inputs of bit length at most
`qlen` are returned unchanged (no modular reduction anywhere). -/
theorem bits2int_spec (input : Bytes) (qlen : Nat) :
    (input.length * 8 > qlen →
      bits2int input qlen = bytesToNat input >>> (input.length * 8 - qlen))
    ∧ (input.length * 8 ≤ qlen → bits2int input qlen = bytesToNat input) := by
  constructor
  · intro h
    simp only [bits2int]
    rw [if_pos h]
  · intro h
    simp only [bits2int]
    rw [if_neg (by omega)]

/-- Witness for C4 at the concrete input `0xFF` with `qlen = 4` and
`qlen = 12`. -/
theorem bits2int_spec_witness :
    bits2int [(255 : Byte)] 4 = bytesToNat [(255 : Byte)] >>> 4
    ∧ bits2int [(255 : Byte)] 12 = bytesToNat [(255 : Byte)] :=
  ⟨(bits2int_spec [(255 : Byte)] 4).1 (by decide),
   (bits2int_spec [(255 : Byte)] 12).2 (by decide)⟩

/-- Claim C5: `int2octets v rolen` always returns exactly `rolen` bytes: the
minimal big-endian encoding left-padded with zeros when shorter than `rolen`,
its most-significant excess bytes dropped when longer (so the value is taken
modulo `256 ^ rolen`, with no error and no reduction modulo the group
order). -/
theorem int2octets_spec (v rolen : Nat) :
    (int2octets v rolen).length = rolen
    ∧ ((natToBytes v).length ≤ rolen →
        int2octets v rolen =
          List.replicate (rolen - (natToBytes v).length) (0 : Byte) ++ natToBytes v)
    ∧ ((natToBytes v).length > rolen →
        int2octets v rolen = (natToBytes v).drop ((natToBytes v).length - rolen))
    ∧ bytesToNat (int2octets v rolen) = v % 256 ^ rolen := by
  refine ⟨?_, ?_, ?_, ?_⟩
  · simp only [int2octets]
    split_ifs with h1 h2
    · simp only [List.length_append, List.length_replicate]
      omega
    · rw [List.length_drop]
      omega
    · omega
  · intro h
    simp only [int2octets]
    rcases Nat.lt_or_ge (natToBytes v).length rolen with hlt | hge
    · rw [if_pos hlt]
    · have heq : (natToBytes v).length = rolen := le_antisymm h hge
      rw [if_neg (by omega), if_neg (by omega), heq]
      simp
  · intro h
    simp only [int2octets]
    rw [if_neg (by omega), if_pos h]
  · rcases Nat.lt_or_ge v (256 ^ rolen) with hv | hv
    · rw [int2octets_toNat_of_lt v rolen hv, Nat.mod_eq_of_lt hv]
    · have hlen : rolen < (natToBytes v).length := by
        by_contra hc
        have : v < 256 ^ rolen := by
          calc v = bytesToNat (natToBytes v) := (bytesToNat_natToBytes v).symm
            _ < 256 ^ (natToBytes v).length := bytesToNat_lt _
            _ ≤ 256 ^ rolen := Nat.pow_le_pow_right (by norm_num) (by omega)
        omega
      simp only [int2octets]
      rw [if_neg (by omega), if_pos (by omega), bytesToNat_drop,
        bytesToNat_natToBytes]
      congr 1
      congr 1
      omega

/-- Witness for C5: padding at `v = 1, rolen = 3` and truncation at
`v = 65536, rolen = 2`. -/
theorem int2octets_spec_witness :
    int2octets 1 3 =
      List.replicate (3 - (natToBytes 1).length) (0 : Byte) ++ natToBytes 1
    ∧ int2octets 65536 2 = (natToBytes 65536).drop ((natToBytes 65536).length - 2) :=
  ⟨(int2octets_spec 1 3).2.1 (by decide),
   (int2octets_spec 65536 2).2.2.1 (by decide)⟩

/-- Claim C6: `bits2octets input q qlen rolen` computes
`z1 = bits2int input qlen` and encodes `z1` via `int2octets` when `z1 - q`
is negative, and `z1 - q` otherwise. -/
theorem bits2octets_spec (input : Bytes) (q qlen rolen : Nat) :
    bits2octets input q qlen rolen =
      if bits2int input qlen < q then int2octets (bits2int input qlen) rolen
      else int2octets (bits2int input qlen - q) rolen :=
  bits2octets_eq input q qlen rolen

/-- Claim C10: with `qlen` the exact bit length of `q > 0` and
`rolen = ⌈qlen/8⌉`, the big-endian value of `bits2octets input q qlen rolen`
is exactly `z1` or `z1 - q` (a single conditional subtraction, never
truncated by `int2octets`) and always lies in `[0, q)`. -/
theorem bits2octets_range (input : Bytes) (q qlen : Nat)
    (hq : 0 < q) (hlow : 2 ^ (qlen - 1) ≤ q) (hhigh : q < 2 ^ qlen) :
    bytesToNat (bits2octets input q qlen ((qlen + 7) / 8)) =
      (if bits2int input qlen < q then bits2int input qlen
       else bits2int input qlen - q)
    ∧ bytesToNat (bits2octets input q qlen ((qlen + 7) / 8)) < q := by
  have hqlen1 : 1 ≤ qlen := by
    by_contra h
    have h0 : qlen = 0 := by omega
    rw [h0] at hhigh
    simp at hhigh
    omega
  have hz1 : bits2int input qlen < 2 ^ qlen := bits2int_lt input qlen
  have h2q : 2 ^ qlen ≤ 2 * q := by
    calc 2 ^ qlen = 2 * 2 ^ (qlen - 1) := by
          rw [← pow_succ']
          congr 1
          omega
      _ ≤ 2 * q := by omega
  have hfit : 2 ^ qlen ≤ 256 ^ ((qlen + 7) / 8) := by
    have h256 : (256 : Nat) ^ ((qlen + 7) / 8) = 2 ^ (8 * ((qlen + 7) / 8)) := by
      rw [pow_mul]
      norm_num
    rw [h256]
    exact Nat.pow_le_pow_right (by norm_num) (by omega)
  rw [bits2octets_eq]
  rcases Nat.lt_or_ge (bits2int input qlen) q with h | h
  · rw [if_pos h, if_pos h, int2octets_toNat_of_lt _ _ (by omega)]
    exact ⟨rfl, h⟩
  · rw [if_neg (by omega), if_neg (by omega),
      int2octets_toNat_of_lt _ _ (by omega)]
    exact ⟨rfl, by omega⟩

/-- Witness for C10 at `input = 0xFF`, `q = 3` (`qlen = 2`, `rolen = 1`):
`z1 = 3 ≥ q`, so the encoded value is `z1 - q = 0 < 3`. -/
theorem bits2octets_range_witness :
    bytesToNat (bits2octets [(255 : Byte)] 3 2 ((2 + 7) / 8)) =
      (if bits2int [(255 : Byte)] 2 < 3 then bits2int [(255 : Byte)] 2
       else bits2int [(255 : Byte)] 2 - 3)
    ∧ bytesToNat (bits2octets [(255 : Byte)] 3 2 ((2 + 7) / 8)) < 3 :=
  bits2octets_range [(255 : Byte)] 3 2 (by decide) (by decide) (by decide)

/-- Claim C9: `hashToInt hash c` from `ecdsa.go` computes exactly
`bits2int hash qlen'` with `qlen'` the bit length of the curve order:
truncating the hash to `⌈qlen'/8⌉` bytes first and then shifting out the
remaining excess bits keeps precisely the `qlen'` most-significant bits of
the full hash. -/
theorem hashToInt_eq_bits2int (hash : Bytes) (N : Nat) :
    hashToInt hash N = bits2int hash (bitLen N) := by
  simp only [hashToInt, bits2int]
  by_cases hlen : hash.length > (bitLen N + 7) / 8
  · rw [if_pos hlen]
    have htl : (hash.take ((bitLen N + 7) / 8)).length = (bitLen N + 7) / 8 := by
      rw [List.length_take]
      exact Nat.min_eq_left (Nat.le_of_lt hlen)
    rw [htl, bytesToNat_take]
    have h8 : bitLen N ≤ 8 * ((bitLen N + 7) / 8) := by omega
    have hgt : hash.length * 8 > bitLen N := by omega
    rw [if_pos hgt]
    by_cases hex : 8 * ((bitLen N + 7) / 8) > bitLen N
    · rw [if_pos (by omega)]
      have ht : (((((bitLen N + 7) / 8 : Nat) : Int) * 8 - (bitLen N : Int))).toNat =
          8 * ((bitLen N + 7) / 8) - bitLen N := by omega
      rw [ht, ← Nat.shiftRight_add]
      congr 1
      omega
    · rw [if_neg (by omega)]
      congr 1
      omega
  · rw [if_neg hlen]
    by_cases hgt : hash.length * 8 > bitLen N
    · rw [if_pos (by omega), if_pos hgt]
      congr 1
      omega
    · rw [if_neg (by omega), if_neg hgt]

/-! ### The candidate-generation loop -/

theorem buildT_run (mac : Mac) (k v : Bytes) (holen need : Nat)
    (hmac : ∀ key msg, (mac key msg).length = holen) :
    ∀ fuel m, need ≤ fuel * holen + (macChain mac k v m).length →
    ∃ M, m ≤ M
      ∧ buildT mac k need fuel (macIter mac k v m) (macChain mac k v m) =
          (macIter mac k v M, macChain mac k v M)
      ∧ need ≤ (macChain mac k v M).length
      ∧ ∀ j, m ≤ j → j < M → (macChain mac k v j).length < need := by
  intro fuel
  induction fuel with
  | zero =>
    intro m h
    exact ⟨m, le_rfl, rfl, by simpa using h, fun j h1 h2 => by omega⟩
  | succ f ih =>
    intro m h
    by_cases hc : (macChain mac k v m).length < need
    · have hstep : buildT mac k need (f + 1) (macIter mac k v m) (macChain mac k v m)
          = buildT mac k need f (macIter mac k v (m + 1)) (macChain mac k v (m + 1)) := by
        simp only [buildT, if_pos hc]
        rfl
      have hlen1 : (macChain mac k v (m + 1)).length =
          (macChain mac k v m).length + holen := by
        simp [macChain, List.length_append, hmac]
      have hmul : (f + 1) * holen = f * holen + holen := by ring
      obtain ⟨M, hM1, hM2, hM3, hM4⟩ := ih (m + 1) (by omega)
      refine ⟨M, by omega, hstep ▸ hM2, hM3, fun j hj1 hj2 => ?_⟩
      rcases Nat.eq_or_lt_of_le hj1 with he | hlt
      · exact he ▸ hc
      · exact hM4 j (by omega) hj2
    · refine ⟨m, le_rfl, ?_, by omega, fun j h1 h2 => by omega⟩
      simp only [buildT, if_neg hc]

/-- Claim C1: in every iteration of `generateSecret`'s main loop, starting
from DRBG state `(K, V)`, the byte string `T` handed to `bits2int` is built
by repeatedly setting `V = mac(K, V)` and appending `V` to `T`, stopping as
soon as `len(T) ≥ qlen/8` (floor division), and the candidate decoded from
that iteration is `bits2int(T, qlen)`. -/
theorem generateSecret_buildT (mac : Mac) (holen : Nat)
    (hmac : ∀ key msg, (mac key msg).length = holen) (hpos : 0 < holen)
    (st : GenState) (qlen : Nat) :
    ∃ m, buildT mac st.k (qlen / 8) (qlen / 8) st.v [] =
        (macIter mac st.k st.v m, macChain mac st.k st.v m)
      ∧ qlen / 8 ≤ (macChain mac st.k st.v m).length
      ∧ (∀ j < m, (macChain mac st.k st.v j).length < qlen / 8)
      ∧ candidateOf mac qlen st = bits2int (macChain mac st.k st.v m) qlen := by
  have h0 : qlen / 8 ≤ (qlen / 8) * holen + (macChain mac st.k st.v 0).length := by
    have := Nat.le_mul_of_pos_right (qlen / 8) hpos
    simpa [macChain]
  obtain ⟨M, _, h2, h3, h4⟩ :=
    buildT_run mac st.k st.v holen (qlen / 8) hmac (qlen / 8) 0 h0
  have h2' : buildT mac st.k (qlen / 8) (qlen / 8) st.v [] =
      (macIter mac st.k st.v M, macChain mac st.k st.v M) := h2
  refine ⟨M, h2', h3, fun j hj => h4 j (by omega) hj, ?_⟩
  simp only [candidateOf, h2']

/-- Witness for C1: the single-byte MAC `exMac`, empty initial state and
`qlen = 8`. -/
theorem generateSecret_buildT_witness :
    ∃ m, buildT exMac [] (8 / 8) (8 / 8) [] [] =
        (macIter exMac [] [] m, macChain exMac [] [] m)
      ∧ 8 / 8 ≤ (macChain exMac [] [] m).length
      ∧ (∀ j < m, (macChain exMac [] [] j).length < 8 / 8)
      ∧ candidateOf exMac 8 ⟨[], []⟩ = bits2int (macChain exMac [] [] m) 8 :=
  generateSecret_buildT exMac 1 (fun _ _ => rfl) (by decide) ⟨[], []⟩ 8

theorem genLoop_mem (mac : Mac) (q qlen : Nat) (test : Nat → Bool) :
    ∀ fuel st c, c ∈ (genLoop mac q qlen test fuel st).2 → 1 ≤ c ∧ c < q := by
  intro fuel
  induction fuel with
  | zero =>
    intro st c hc
    simp [genLoop] at hc
  | succ f ih =>
    intro st c hc
    simp only [genLoop] at hc
    split at hc
    · rename_i hrange
      split at hc
      · simp only [List.mem_singleton] at hc
        exact hc ▸ hrange
      · simp only [List.mem_cons] at hc
        rcases hc with hc | hc
        · exact hc ▸ hrange
        · exact ih _ c hc
    · exact ih _ c hc

/-- Claim C2: in every invocation of `generateSecret`, every candidate on
which the caller-supplied predicate is invoked (the recorded trace) satisfies
`1 ≤ candidate < q`; out-of-range candidates are rejected by the
short-circuit range checks before the predicate runs. -/
theorem generateSecret_range (q x : Nat) (mac : Mac) (holen : Nat)
    (hash : Bytes) (test : Nat → Bool) (fuel : Nat) (c : Nat)
    (hc : c ∈ (generateSecret q x mac holen hash test fuel).2) :
    1 ≤ c ∧ c < q := by
  simp only [generateSecret] at hc
  exact genLoop_mem mac q (bitLen q) test fuel _ c hc

/-- Witness for C2: with `q = 255` and an always-rejecting predicate, the
candidate `2` is tested and indeed `1 ≤ 2 < 255`. -/
theorem generateSecret_range_witness :
    2 ∈ (generateSecret 255 1 exMac 1 [] (fun _ => false) 1).2
    ∧ (1 ≤ 2 ∧ 2 < 255) :=
  ⟨by decide, generateSecret_range 255 1 exMac 1 [] (fun _ => false) 1 2 (by decide)⟩

theorem genLoop_accepts (mac : Mac) (q qlen : Nat) (test : Nat → Bool) :
    ∀ fuel st k, (genLoop mac q qlen test fuel st).1 = some k →
      (1 ≤ k ∧ k < q) ∧ test k = true := by
  intro fuel
  induction fuel with
  | zero =>
    intro st k h
    simp [genLoop] at h
  | succ f ih =>
    intro st k h
    simp only [genLoop] at h
    split at h
    · rename_i hrange
      split at h
      · rename_i htest
        simp only at h
        have hk := Option.some.inj h
        subst hk
        exact ⟨hrange, htest⟩
      · simp only at h
        exact ih _ k h
    · exact ih _ k h

/-- Claim C7: `SignDSA` returns the invalid-domain-parameters error exactly
when the bit length of `q` is not a multiple of 8 (`n&7 != 0` in the source),
and in that case it returns at once — for every MAC, digest, private key and
fuel — without running the generator or producing a signature pair. -/
theorem signDSA_invalid_params (p q g x : Nat) (modInv : Nat → Nat → Nat)
    (mac : Mac) (holen : Nat) (hash : Bytes) (fuel : Nat) :
    signDSA p q g x modInv mac holen hash fuel = Except.error () ↔
      bitLen q % 8 ≠ 0 := by
  have hand : bitLen q &&& 7 = bitLen q % 8 := by
    have h := Nat.and_pow_two_sub_one_eq_mod (bitLen q) 3
    norm_num at h
    exact h
  simp only [signDSA, hand]
  by_cases h : bitLen q % 8 ≠ 0
  · rw [if_pos h]
    simp [h]
  · rw [if_neg h]
    constructor
    · intro he
      split at he <;> exact Except.noConfusion he
    · intro hne
      exact absurd hne h

/-- Claim C8: whenever `SignDSA` or `SignECDSA` terminates without error,
both returned components satisfy `1 ≤ r < q` and `1 ≤ s < q`: the acceptance
closures reduce them mod `q` and reject any candidate with `r = 0` or
`s = 0`. -/
theorem sign_rs_in_range :
    (∀ (p q g x : Nat) (modInv : Nat → Nat → Nat) (mac : Mac) (holen : Nat)
        (hash : Bytes) (fuel r s : Nat), 0 < q →
      signDSA p q g x modInv mac holen hash fuel = Except.ok (some (r, s)) →
      1 ≤ r ∧ r < q ∧ 1 ≤ s ∧ s < q)
    ∧ (∀ (N d : Nat) (sbmx : Nat → Nat) (modInv : Nat → Nat → Nat) (mac : Mac)
        (holen : Nat) (hash : Bytes) (fuel r s : Nat), 0 < N →
      signECDSA N d sbmx modInv mac holen hash fuel = some (r, s) →
      1 ≤ r ∧ r < N ∧ 1 ≤ s ∧ s < N) := by
  constructor
  · intro p q g x modInv mac holen hash fuel r s hq h
    simp only [signDSA] at h
    split at h
    · exact Except.noConfusion h
    · rcases hgen : (generateSecret q x mac holen hash
          (dsaTest p q g x modInv hash) fuel).1 with _ | k
      · rw [hgen] at h
        simp at h
      · rw [hgen] at h
        simp only [Except.ok.injEq, Option.some.injEq] at h
        simp only [generateSecret] at hgen
        have hacc := genLoop_accepts mac q (bitLen q)
          (dsaTest p q g x modInv hash) fuel _ k hgen
        have htest := hacc.2
        simp only [dsaTest, decide_eq_true_eq] at htest
        obtain ⟨hr0, hs0⟩ := htest
        have hr : (dsaRS p q g x modInv hash k).1 = r := by rw [h]
        have hs : (dsaRS p q g x modInv hash k).2 = s := by rw [h]
        subst hr hs
        refine ⟨Nat.one_le_iff_ne_zero.mpr hr0, ?_,
          Nat.one_le_iff_ne_zero.mpr hs0, ?_⟩
        · simp only [dsaRS]
          exact Nat.mod_lt _ hq
        · simp only [dsaRS]
          exact Nat.mod_lt _ hq
  · intro N d sbmx modInv mac holen hash fuel r s hN h
    simp only [signECDSA] at h
    rcases hgen : (generateSecret N d mac holen hash
        (ecdsaTest N d sbmx modInv hash) fuel).1 with _ | k
    · rw [hgen] at h
      simp at h
    · rw [hgen] at h
      simp only [Option.some.injEq] at h
      simp only [generateSecret] at hgen
      have hacc := genLoop_accepts mac N (bitLen N)
        (ecdsaTest N d sbmx modInv hash) fuel _ k hgen
      have htest := hacc.2
      simp only [ecdsaTest, decide_eq_true_eq] at htest
      obtain ⟨hr0, hs0⟩ := htest
      have hr : (ecdsaRS N d sbmx modInv hash k).1 = r := by rw [h]
      have hs : (ecdsaRS N d sbmx modInv hash k).2 = s := by rw [h]
      subst hr hs
      refine ⟨Nat.one_le_iff_ne_zero.mpr hr0, ?_,
        Nat.one_le_iff_ne_zero.mpr hs0, ?_⟩
      · simp only [ecdsaRS]
        exact Nat.mod_lt _ hN
      · simp only [ecdsaRS]
        exact Nat.mod_lt _ hN

/-- Witness for C8: a complete accepting run of `signDSA` on tiny concrete
parameters returns `(4, 4)` with `1 ≤ 4 < 255`. -/
theorem sign_rs_in_range_witness :
    signDSA 5 255 3 1 (fun _ _ => 1) exMac 1 [] 2 = Except.ok (some (4, 4))
    ∧ (1 ≤ 4 ∧ 4 < 255 ∧ 1 ≤ 4 ∧ 4 < 255) :=
  ⟨rfl, sign_rs_in_range.1 5 255 3 1 (fun _ _ => 1) exMac 1 [] 2 4 4
    (by decide) rfl⟩

/-- Claim C3: determinism — `generateSecret`, `SignDSA` and `SignECDSA`
are pure functions of the listed inputs (group order, private scalar, MAC,
digest, predicate and fuel): two invocations on equal inputs return equal
accepted candidates and byte-identical signatures; no other input (such as
a randomness source) influences the result. -/
theorem rfc6979_deterministic :
    (∀ (q x : Nat) (mac : Mac) (holen : Nat) (hash : Bytes)
        (test : Nat → Bool) (fuel : Nat) (q' x' : Nat) (mac' : Mac)
        (holen' : Nat) (hash' : Bytes) (test' : Nat → Bool) (fuel' : Nat),
      q = q' → x = x' → mac = mac' → holen = holen' → hash = hash' →
      test = test' → fuel = fuel' →
      generateSecret q x mac holen hash test fuel =
        generateSecret q' x' mac' holen' hash' test' fuel')
    ∧ (∀ (p q g x : Nat) (modInv : Nat → Nat → Nat) (mac : Mac)
        (holen : Nat) (hash : Bytes) (fuel : Nat) (p' q' g' x' : Nat)
        (modInv' : Nat → Nat → Nat) (mac' : Mac) (holen' : Nat)
        (hash' : Bytes) (fuel' : Nat),
      p = p' → q = q' → g = g' → x = x' → modInv = modInv' → mac = mac' →
      holen = holen' → hash = hash' → fuel = fuel' →
      signDSA p q g x modInv mac holen hash fuel =
        signDSA p' q' g' x' modInv' mac' holen' hash' fuel')
    ∧ (∀ (N d : Nat) (sbmx : Nat → Nat) (modInv : Nat → Nat → Nat)
        (mac : Mac) (holen : Nat) (hash : Bytes) (fuel : Nat) (N' d' : Nat)
        (sbmx' : Nat → Nat) (modInv' : Nat → Nat → Nat) (mac' : Mac)
        (holen' : Nat) (hash' : Bytes) (fuel' : Nat),
      N = N' → d = d' → sbmx = sbmx' → modInv = modInv' → mac = mac' →
      holen = holen' → hash = hash' → fuel = fuel' →
      signECDSA N d sbmx modInv mac holen hash fuel =
        signECDSA N' d' sbmx' modInv' mac' holen' hash' fuel') := by
  refine ⟨?_, ?_, ?_⟩ <;> (intros; subst_vars; rfl)

/-- Witness for C3: two runs of `signDSA` on the same concrete inputs give
the same result. -/
theorem rfc6979_deterministic_witness :
    signDSA 5 255 3 1 (fun _ _ => 1) exMac 1 [] 2 =
      signDSA 5 255 3 1 (fun _ _ => 1) exMac 1 [] 2 :=
  rfc6979_deterministic.2.1 5 255 3 1 (fun _ _ => 1) exMac 1 [] 2
    5 255 3 1 (fun _ _ => 1) exMac 1 [] 2
    rfl rfl rfl rfl rfl rfl rfl rfl rfl

end RFC6979
